import Mathlib

/-!
# Verification of the Lipschitz-constrained layers in `layers.py`

Shallow embedding of the operator constructions of the repository's
`layers.py` (Cayley-transform orthogonalization in the Fourier domain,
striding adapter, caching layers, utility nonlinearities) and proofs of
the spec's claims about them.

Tensors are embedded as functions/`Matrix` over `Fin`-indexed types; a
batched torch operation (batched `@`, `torch.inverse`, `transpose(1, 2)`,
broadcast `eye[None]`) acts independently on every batch slice, so a
batched tensor of matrices is a function `Fin b → Matrix _ _ 𝕜` and the
batched operations act slice-wise.  Real/complex dtypes are covered by a
common `RCLike` scalar field.
-/

namespace FFTOrtho

open Matrix

variable {𝕜 : Type} [RCLike 𝕜]

/-! ## The Cayley transform (`cayley`, layers.py lines 50–70)

`cayley(W, ED)` dispatches on the runtime shape of `W`; the embedding has
one definition per shape class:

* `cayleyED`      — the `ED=True` branch (lines 54–60), square slices;
* `cayleySq`      — the `ED=False` branch for square slices (`cout = cin`,
  lines 62–70): `U = W[:, :cin]` is all of `W` and `V = W[:, cin:]` has
  zero rows;
* `cayleyTall`    — the `ED=False` branch for `cout ≥ cin` (lines 66–70),
  with the rows of `W` split as `Fin cin ⊕ Fin k` so that `U` / `V` are
  the two row blocks and `torch.cat(..., axis=1)` is `Matrix.fromRows`;
* `cayleyWide`    — the `cin > cout` branch (lines 64–65): transpose,
  recurse (into the tall case), transpose back.
-/

/-- The `ED=True` branch of `cayley` (lines 54–60) on one batch slice:
`A = W - W.conj().transpose(1, 2)`, result `inverse(I + A) @ (I - A)`. -/
noncomputable def cayleyED {c : ℕ} (W : Matrix (Fin c) (Fin c) 𝕜) :
    Matrix (Fin c) (Fin c) 𝕜 :=
  let A := W - Wᴴ
  (1 + A)⁻¹ * (1 - A)

/-- The `ED=True` branch on a batched (3-D) input: slice-wise `cayleyED`. -/
noncomputable def cayleyEDBatch {b c : ℕ} (W : Fin b → Matrix (Fin c) (Fin c) 𝕜) :
    Fin b → Matrix (Fin c) (Fin c) 𝕜 :=
  fun t => cayleyED (W t)

/-- The slice `V = W[:, cin:]` of a square slice `W` (shape `(cin, cin)`):
a matrix with no rows. -/
def emptyRows (c : ℕ) : Matrix (Fin 0) (Fin c) 𝕜 :=
  Matrix.of fun i _ => i.elim0

/-- The `ED=False` branch of `cayley` (lines 62–70) on one square slice
(`cout = cin`): `U = W[:, :cin] = W`, `V = W[:, cin:]` is empty, so
`A = U - U.conj().transpose(1, 2) + V.conj().transpose(1, 2) @ V` and the
result is `inverse(I + A) @ (I - A)` concatenated with the zero-row block
`-2 * V @ inverse(I + A)`. -/
noncomputable def cayleySq {c : ℕ} (W : Matrix (Fin c) (Fin c) 𝕜) :
    Matrix (Fin c) (Fin c) 𝕜 :=
  let U := W
  let V : Matrix (Fin 0) (Fin c) 𝕜 := emptyRows c
  let A := U - Uᴴ + Vᴴ * V
  (1 + A)⁻¹ * (1 - A)

/-- The `ED=False` branch on a batched square (3-D) input: slice-wise. -/
noncomputable def cayleySqBatch {b c : ℕ} (W : Fin b → Matrix (Fin c) (Fin c) 𝕜) :
    Fin b → Matrix (Fin c) (Fin c) 𝕜 :=
  fun t => cayleySq (W t)

/-- The `ED=False` branch of `cayley` (lines 66–70) on one tall slice
(`cout = cin + k ≥ cin`), rows indexed by `Fin cin ⊕ Fin k`:
`U, V = W[:, :cin], W[:, cin:]`; `A = U - Uᴴ + Vᴴ @ V`;
result `cat((inverse(I+A) @ (I-A), -2 * V @ inverse(I+A)), axis=1)`. -/
noncomputable def cayleyTall {c k : ℕ} (W : Matrix (Fin c ⊕ Fin k) (Fin c) 𝕜) :
    Matrix (Fin c ⊕ Fin k) (Fin c) 𝕜 :=
  let U := Matrix.toRows₁ W
  let V := Matrix.toRows₂ W
  let A := U - Uᴴ + Vᴴ * V
  let iIpA := (1 + A)⁻¹
  Matrix.fromRows (iIpA * (1 - A)) ((-2 : 𝕜) • (V * iIpA))

/-- The tall `ED=False` branch on a batched (3-D) input: slice-wise. -/
noncomputable def cayleyTallBatch {b c k : ℕ}
    (W : Fin b → Matrix (Fin c ⊕ Fin k) (Fin c) 𝕜) :
    Fin b → Matrix (Fin c ⊕ Fin k) (Fin c) 𝕜 :=
  fun t => cayleyTall (W t)

/-- The `cin > cout` branch of `cayley` (lines 64–65) on one wide slice:
`cayley(W.transpose(1, 2)).transpose(1, 2)` (the recursive call lands in
the tall branch; the `ED` argument of the recursive call is the default
`False`). -/
noncomputable def cayleyWide {c k : ℕ} (W : Matrix (Fin c) (Fin c ⊕ Fin k) 𝕜) :
    Matrix (Fin c) (Fin c ⊕ Fin k) 𝕜 :=
  (cayleyTall Wᵀ)ᵀ

/-- The wide `ED=False` branch on a batched (3-D) input: slice-wise. -/
noncomputable def cayleyWideBatch {b c k : ℕ}
    (W : Fin b → Matrix (Fin c) (Fin c ⊕ Fin k) 𝕜) :
    Fin b → Matrix (Fin c) (Fin c ⊕ Fin k) 𝕜 :=
  fun t => cayleyWide (W t)

/-! 2-D entry point (lines 51–52): `if len(W.shape) == 2: return
cayley(W[None])[0]`.  Note the recursive call passes no `ED` argument, so
the `ED` flag of a 2-D call is dropped and the batched call always runs
with `ED=False`; the 2-D wrappers below therefore ignore their `ED`
argument and call the corresponding `ED=False` batched function on the
batch-1 stack, taking slice `0`. -/

/-- Entry of `cayley` on a 2-D square input with explicit `ED` flag. -/
noncomputable def cayley2dSq {c : ℕ} (W : Matrix (Fin c) (Fin c) 𝕜) (ED : Bool) :
    Matrix (Fin c) (Fin c) 𝕜 :=
  cayleySqBatch (fun _ : Fin 1 => W) 0

/-- Entry of `cayley` on a 2-D tall input with explicit `ED` flag. -/
noncomputable def cayley2dTall {c k : ℕ} (W : Matrix (Fin c ⊕ Fin k) (Fin c) 𝕜)
    (ED : Bool) : Matrix (Fin c ⊕ Fin k) (Fin c) 𝕜 :=
  cayleyTallBatch (fun _ : Fin 1 => W) 0

/-- Entry of `cayley` on a 2-D wide input with explicit `ED` flag. -/
noncomputable def cayley2dWide {c k : ℕ} (W : Matrix (Fin c) (Fin c ⊕ Fin k) 𝕜)
    (ED : Bool) : Matrix (Fin c) (Fin c ⊕ Fin k) 𝕜 :=
  cayleyWideBatch (fun _ : Fin 1 => W) 0

/-! ## Squared Euclidean norm (for the operator-norm claim) -/

/-- Squared Euclidean norm of a complex vector. -/
noncomputable def vecNormSq {ι : Type} [Fintype ι] (x : ι → ℂ) : ℝ :=
  ∑ i, Complex.normSq (x i)

/-! ## The per-frequency operator built by `CayleyConv.forward` -/

/-- The per-frequency matrix stack built by `CayleyConv.forward` (line 95):
`cayley(self.alpha * wfft / wfft.norm())`.  With equal in/out channel
counts the frequency-domain weight stack `wfft` is a batch of square
complex matrices, `alpha` is the learnable real scalar and `nrm` the
(real, scalar) value of `wfft.norm()`; the batched `cayley` call takes
the square `ED=False` path. -/
noncomputable def cayleyConvQ {b c : ℕ} (wfft : Fin b → Matrix (Fin c) (Fin c) ℂ)
    (alpha nrm : ℝ) : Fin b → Matrix (Fin c) (Fin c) ℂ :=
  cayleySqBatch (fun t => ((alpha : ℂ) / (nrm : ℂ)) • wfft t)

/-! ## The striding adapter (`StridedConv`, lines 23–47) -/

/-- The constructor data passed on by `StridedConv.__init__` to the
wrapped base module: `args` are the positional arguments (layout
`in_channels, out_channels, kernel_size` when three are given), the other
fields the keyword arguments, plus the flag recording whether the
space-to-depth pre-forward hook has been registered. -/
structure ConvArgs where
  args : List ℕ
  stride : Option ℕ
  kernel_size : Option ℕ
  padding : Option ℕ
  striding : Bool
deriving DecidableEq

/-- The embedding of `StridedConv.__init__` (lines 24–43): rewrites the constructor
arguments before `super().__init__`.  `args` are the positional
arguments, `stride0` / `ks0` the optional `stride` / `kernel_size`
keyword arguments.  Returns `none` exactly when the Python code raises:
`args[0]` on an empty positional list (striding path), or the
`kwargs['kernel_size']` lookup when neither three positional arguments
nor a `kernel_size` keyword are given (non-striding path). -/
def stridedConvInit (args : List ℕ) (stride0 ks0 : Option ℕ) : Option ConvArgs :=
  if stride0 = some 2 then
    match args with
    | [a0, a1, a2] =>
      some { args := [4 * a0, a1, max 1 (a2 / 2)], stride := some 1,
             kernel_size := ks0, padding := some (max 1 (a2 / 2) / 2),
             striding := true }
    | a0 :: rest =>
      match ks0 with
      | some ks =>
        some { args := (4 * a0) :: rest, stride := some 1,
               kernel_size := some (max 1 (ks / 2)),
               padding := some (max 1 (ks / 2) / 2), striding := true }
      | none =>
        some { args := (4 * a0) :: rest, stride := some 1,
               kernel_size := none, padding := none, striding := true }
    | [] => none
  else
    match args with
    | [a0, a1, a2] =>
      some { args := [a0, a1, a2], stride := stride0, kernel_size := ks0,
             padding := some (a2 / 2), striding := false }
    | _ =>
      match ks0 with
      | some ks =>
        some { args := args, stride := stride0, kernel_size := ks0,
               padding := some (ks / 2), striding := false }
      | none => none

/-- The pre-forward hook registered when striding (lines 44–47):
`einops.rearrange(x, "b c (w k1) (h k2) -> b (c k1 k2) w h", k1=2, k2=2)`.
The input spatial indices decompose as `2 * w + k1` / `2 * h + k2` and the
output channel index as `4 * c + 2 * k1 + k2`. -/
def spaceToDepth {B C W H : ℕ}
    (x : Fin B → Fin C → Fin (2 * W) → Fin (2 * H) → ℝ) :
    Fin B → Fin (4 * C) → Fin W → Fin H → ℝ :=
  fun b c w h =>
    x b ⟨(c : ℕ) / 4, by have := c.isLt; omega⟩
      ⟨2 * (w : ℕ) + ((c : ℕ) % 4) / 2, by have := w.isLt; omega⟩
      ⟨2 * (h : ℕ) + (c : ℕ) % 2, by have := h.isLt; omega⟩

/-! ## `GroupSort.forward` (lines 311–315) -/

/-- The map `GroupSort.forward` (lines 311–315) on an input whose channel dimension is the even
number `m + m`: `a, b = x.split(x.size(1) // 2, 1)` yields the two
channel halves (indexed `Fin m ⊕ Fin m`, first half ⊕ second half), and
the output is `torch.cat([max(a, b), min(a, b)], dim=1)`.  `ι` collects
the remaining (batch and spatial) coordinates, over which the operation
is elementwise. -/
def groupSort {m : ℕ} {ι : Type} (x : (Fin m ⊕ Fin m) → ι → ℝ) :
    (Fin m ⊕ Fin m) → ι → ℝ
  | Sum.inl j => fun s => max (x (Sum.inl j) s) (x (Sum.inr j) s)
  | Sum.inr j => fun s => min (x (Sum.inl j) s) (x (Sum.inr j) s)

/-- Euclidean (`‖·‖₂`, flattened) norm of a channels × rest tensor. -/
noncomputable def tensorL2 {κ ι : Type} [Fintype κ] [Fintype ι]
    (y : κ → ι → ℝ) : ℝ :=
  Real.sqrt (∑ i, ∑ s, y i s ^ 2)

/-- Number of chunks produced by `torch.split(x, k, dim)` on a dimension
of size `c` when `k > 0`: `⌈c / k⌉`. -/
def splitChunks (c k : ℕ) : ℕ := (c + k - 1) / k

/-- The map `GroupSort.forward` on a general channel count `c`:
`a, b = x.split(c // 2, 1)` succeeds exactly when the split produces two
chunks (`c // 2 > 0`, and the two-element unpacking needs
`splitChunks c (c // 2) = 2`; otherwise `torch.split` raises or the
unpacking raises a `ValueError`).  On success chunk `a` holds channels
`[0, c/2)`, chunk `b` channels `[c/2, c)`, and the output channel `i` is
the `max` over the pair for `i < c/2` and the `min` at `i - c/2`
otherwise.  The result records the output's channel count. -/
def groupSortGen (c : ℕ) {ι : Type} (x : Fin c → ι → ℝ) :
    Option ((c' : ℕ) × (Fin c' → ι → ℝ)) :=
  if h : 0 < c / 2 ∧ splitChunks c (c / 2) = 2 then
    some ⟨c, fun i s =>
      if h2 : (i : ℕ) < c / 2 then
        max (x i s) (x ⟨c / 2 + (i : ℕ), by
          rcases h with ⟨h1, hck⟩
          by_contra hlt
          have hodd : c = 2 * (c / 2) + 1 := by omega
          have h3 : c + c / 2 - 1 = 3 * (c / 2) := by omega
          unfold splitChunks at hck
          rw [h3, Nat.mul_div_cancel 3 h1] at hck
          exact absurd hck (by norm_num)⟩ s)
      else
        min (x ⟨(i : ℕ) - c / 2, by have := i.isLt; omega⟩ s) (x i s)⟩
  else none

/-! ## `ConvexCombo` (lines 317–324) -/

/-- The function `torch.sigmoid`. -/
noncomputable def sigmoid (t : ℝ) : ℝ := 1 / (1 + Real.exp (-t))

/-- The map `ConvexCombo.forward` (lines 322–324): `s * x + (1 - s) * y` with
`s = torch.sigmoid(self.alpha)`; `ι` indexes the tensor coordinates. -/
noncomputable def convexCombo {ι : Type} (alpha : ℝ) (x y : ι → ℝ) : ι → ℝ :=
  fun i => sigmoid alpha * x i + (1 - sigmoid alpha) * y i

/-! ## `CayleyLinear` (lines 273–289) -/

/-- State of a `CayleyLinear` module: weight, bias, `alpha`, the cached
`Q` (`None` after `reset_parameters`), and the `training` flag.  The
weight is square (`in_features = out_features = n`). -/
structure LinearState (n : ℕ) where
  weight : Matrix (Fin n) (Fin n) ℝ
  bias : Fin n → ℝ
  alpha : ℝ
  Q : Option (Matrix (Fin n) (Fin n) ℝ)
  training : Bool

/-- The value `weight.norm()`: the Frobenius norm. -/
noncomputable def frobNorm {n : ℕ} (w : Matrix (Fin n) (Fin n) ℝ) : ℝ :=
  Real.sqrt (∑ i, ∑ j, w i j ^ 2)

/-- The matrix computed by `CayleyLinear.forward` (line 288):
`cayley(self.alpha * self.weight / self.weight.norm())` — a 2-D call with
the default `ED=False`, hence routed through the batch-1 wrapper. -/
noncomputable def cayleyLinearQ {n : ℕ} (w : Matrix (Fin n) (Fin n) ℝ)
    (alpha : ℝ) : Matrix (Fin n) (Fin n) ℝ :=
  cayley2dSq ((alpha / frobNorm w) • w) false

/-- One call of `CayleyLinear.forward` (lines 286–289):
`if self.training or self.Q is None: self.Q = cayley(...)`, then
`F.linear(X, self.Q if self.training else self.Q.detach(), self.bias)`.
Returns the new state, the output vector, the matrix actually used, and
whether it was detached (`detach()` keeps the value and drops gradient
tracking). -/
noncomputable def cayleyLinearForward {n : ℕ} (s : LinearState n)
    (X : Fin n → ℝ) :
    LinearState n × ((Fin n → ℝ) × Matrix (Fin n) (Fin n) ℝ × Bool) :=
  let Qnew : Matrix (Fin n) (Fin n) ℝ :=
    match s.training, s.Q with
    | true, _ => cayleyLinearQ s.weight s.alpha
    | false, none => cayleyLinearQ s.weight s.alpha
    | false, some q => q
  ({ s with Q := some Qnew },
    (fun i => (Qnew *ᵥ X) i + s.bias i, Qnew, ! s.training))

/-- The embedding of `CayleyLinear.reset_parameters` (lines 279–284): re-draws weight and
bias (the random draws are inputs `w'`, `b'` here) and sets
`self.Q = None`. -/
def cayleyLinearReset {n : ℕ} (s : LinearState n)
    (w' : Matrix (Fin n) (Fin n) ℝ) (b' : Fin n → ℝ) : LinearState n :=
  { s with weight := w', bias := b', Q := none }

/-! ## The `genH` inner optimization (lines 122–156 and 212–239) -/

/-- The `H`-cache state of a `CayleyConvED` / `CayleyConvED2` layer: `self.H`
holds the stored tensor paired with its `requires_grad` flag (`detach()`
clears the flag). -/
structure EDState (β : Type) where
  H : Option (β × Bool)

/-- The inner optimization loop of `genH`: `for i in range(100)` applies
one gradient-descent update per iteration (the update — loss evaluation,
backward pass, parameter step — is the function `step`, a call into the
autograd substrate).  The body contains no `break`, `return` or raise, so
the fold runs over all of `range(100)`. -/
def genHLoop {α : Type} (step : α → α) (w0 : α) : α :=
  (List.range 100).foldl (fun w _ => step w) w0

/-- The embedding of `CayleyConvED.genH` (lines 122–156): run the 100-iteration loop from
the freshly initialized conv weight `w0`, recompute the frequency stack
`H` from the final weight (`hOf`, lines 155), and store it detached
(line 156). -/
def genH_ED {α β : Type} (step : α → α) (hOf : α → β) (w0 : α) : β × Bool :=
  (hOf (genHLoop step w0), false)

/-- The embedding of `CayleyConvED2.genH` (lines 212–239): the same 100-iteration loop
structure with the manual update `A = H - lr * H.grad` as its step, the
final tensor reshaped by `hOf` (`A[:, :, None, None]`, line 238) and
stored detached (line 239). -/
def genH_ED2 {α β : Type} (step : α → α) (hOf : α → β) (w0 : α) : β × Bool :=
  (hOf (genHLoop step w0), false)

/-- The `H`-cache check of the forward pass (lines 179–180 and 265–266):
`if self.H == None: self.genH(...)`.  Returns the updated state and
whether `genH` was invoked. -/
def edForwardH {β : Type} (gen : Unit → β × Bool) (s : EDState β) :
    EDState β × Bool :=
  match s.H with
  | none => ({ H := some (gen ()) }, true)
  | some h => ({ H := some h }, false)

/-- Number of `genH` invocations over a sequence of `k` forward calls. -/
def edRunCount {β : Type} (gen : Unit → β × Bool) : ℕ → EDState β → ℕ
  | 0, _ => 0
  | Nat.succ k, s =>
    (if (edForwardH gen s).2 then 1 else 0) +
      edRunCount gen k (edForwardH gen s).1

/-! ## Algebraic facts about the Cayley transform -/

open scoped ComplexOrder

/-- For a skew-Hermitian `A` (over a real-or-complex field), `I + A` is
invertible: the matrix-inversion call inside `cayley` cannot hit a
singular matrix when `A = W - Wᴴ`. -/
theorem isUnit_one_add_of_skew {c : ℕ} {A : Matrix (Fin c) (Fin c) 𝕜}
    (hA : Aᴴ = -A) : IsUnit (1 + A) := by
  rw [Matrix.isUnit_iff_isUnit_det, isUnit_iff_ne_zero]
  intro hdet
  obtain ⟨v, hv, hmul⟩ := (Matrix.exists_mulVec_eq_zero_iff).2 hdet
  rw [Matrix.add_mulVec, Matrix.one_mulVec] at hmul
  have hAv : A.mulVec v = -v := by
    have := congrArg (fun w => w - v) hmul
    simpa [add_sub_cancel_left, sub_eq_iff_eq_add] using this
  have hd : star v ⬝ᵥ A.mulVec v = -(star v ⬝ᵥ v) := by
    rw [hAv, dotProduct_neg]
  have hstar : star (star v ⬝ᵥ A.mulVec v) = -(star v ⬝ᵥ A.mulVec v) := by
    rw [← Matrix.star_dotProduct, Matrix.star_mulVec, hA, Matrix.vecMul_neg,
      Matrix.neg_dotProduct, ← Matrix.dotProduct_mulVec]
  have hs : star (star v ⬝ᵥ v) = star v ⬝ᵥ v := by
    rw [← Matrix.star_dotProduct]
  rw [hd, star_neg, hs, neg_neg] at hstar
  have h0 : star v ⬝ᵥ v = 0 := by
    have h2 : (2 : 𝕜) * (star v ⬝ᵥ v) = 0 := by
      rw [two_mul]
      nth_rewrite 1 [← hstar]
      exact neg_add_cancel _
    exact (mul_eq_zero.1 h2).resolve_left two_ne_zero
  exact hv (Matrix.dotProduct_star_self_eq_zero.1 h0)

/-- The matrix `A = W - Wᴴ` is skew-Hermitian for every `W`. -/
theorem sub_conjTranspose_skew {c : ℕ} (W : Matrix (Fin c) (Fin c) 𝕜) :
    (W - Wᴴ)ᴴ = -(W - Wᴴ) := by
  rw [conjTranspose_sub, conjTranspose_conjTranspose, neg_sub]

/-- The matrix `cayleyED` produces is unitary: `Q @ Q^H = I` whenever `I + (W - Wᴴ)` is
invertible (which, by `isUnit_one_add_of_skew`, is always). -/
theorem cayleyED_mul_conjTranspose {c : ℕ} (W : Matrix (Fin c) (Fin c) 𝕜)
    (h : IsUnit (1 + (W - Wᴴ))) :
    cayleyED W * (cayleyED W)ᴴ = 1 := by
  set A := W - Wᴴ with hAdef
  have hskew : Aᴴ = -A := sub_conjTranspose_skew W
  have hdet : IsUnit (1 + A).det := (Matrix.isUnit_iff_isUnit_det _).1 h
  have h1 : (1 - A)ᴴ = 1 + A := by
    rw [conjTranspose_sub, conjTranspose_one, hskew, sub_neg_eq_add]
  have h2 : (1 + A)ᴴ = 1 - A := by
    rw [conjTranspose_add, conjTranspose_one, hskew, ← sub_eq_add_neg]
  have hdet2 : IsUnit (1 - A).det := by
    rw [← h2, Matrix.det_conjTranspose]
    exact isUnit_star.2 hdet
  have hQ : cayleyED W = (1 + A)⁻¹ * (1 - A) := rfl
  rw [hQ, conjTranspose_mul, Matrix.conjTranspose_nonsing_inv, h1, h2]
  calc (1 + A)⁻¹ * (1 - A) * ((1 + A) * (1 - A)⁻¹)
      = (1 + A)⁻¹ * ((1 - A) * (1 + A)) * (1 - A)⁻¹ := by
        simp only [Matrix.mul_assoc]
    _ = (1 + A)⁻¹ * ((1 + A) * (1 - A)) * (1 - A)⁻¹ := by
        have : (1 - A) * (1 + A) = (1 + A) * (1 - A) := by noncomm_ring
        rw [this]
    _ = ((1 + A)⁻¹ * (1 + A)) * ((1 - A) * (1 - A)⁻¹) := by
        simp only [Matrix.mul_assoc]
    _ = 1 := by
        rw [Matrix.nonsing_inv_mul _ hdet, Matrix.mul_nonsing_inv _ hdet2, one_mul]

/-- The empty row block `V = W[:, cin:]` of a square slice contributes
nothing: `Vᴴ @ V = 0`. -/
theorem emptyRows_conjTranspose_mul (c : ℕ) :
    (emptyRows c (𝕜 := 𝕜))ᴴ * emptyRows c = (0 : Matrix (Fin c) (Fin c) 𝕜) := by
  ext i j
  simp [Matrix.mul_apply]

/-- On a square slice, the `ED=False` branch of `cayley` computes the same
matrix as the `ED=True` branch: `V` is empty so `A` degenerates to
`W - Wᴴ`. -/
theorem cayleySq_eq_cayleyED {c : ℕ} (W : Matrix (Fin c) (Fin c) 𝕜) :
    cayleySq W = cayleyED W := by
  simp only [cayleySq, cayleyED, emptyRows_conjTranspose_mul, add_zero]

/-- The tall (`cout ≥ cin`) `cayley` output has orthonormal columns:
`Qᴴ @ Q = I_cin` whenever `I + A` is invertible, where
`A = U - Uᴴ + Vᴴ V` for the row split `U, V` of `W`. -/
theorem cayleyTall_conjTranspose_mul {c k : ℕ}
    (W : Matrix (Fin c ⊕ Fin k) (Fin c) 𝕜)
    (h : IsUnit (1 + (Matrix.toRows₁ W - (Matrix.toRows₁ W)ᴴ +
      (Matrix.toRows₂ W)ᴴ * Matrix.toRows₂ W))) :
    (cayleyTall W)ᴴ * cayleyTall W = 1 := by
  set U := Matrix.toRows₁ W with hU
  set V := Matrix.toRows₂ W with hV
  set S := U - Uᴴ with hSdef
  set P := Vᴴ * V with hPdef
  have hSskew : Sᴴ = -S := by
    rw [hSdef, conjTranspose_sub, conjTranspose_conjTranspose, neg_sub]
  have hPherm : Pᴴ = P := by
    rw [hPdef, conjTranspose_mul, conjTranspose_conjTranspose]
  set B := 1 + (S + P) with hBdef
  have hdetB : IsUnit B.det := (Matrix.isUnit_iff_isUnit_det _).1 h
  have hBH : Bᴴ = 1 - (S - P) := by
    rw [hBdef, conjTranspose_add, conjTranspose_one, conjTranspose_add,
      hSskew, hPherm]
    noncomm_ring
  have hdetBH : IsUnit (1 - (S - P)).det := by
    rw [← hBH, Matrix.det_conjTranspose]
    exact isUnit_star.2 hdetB
  have h1A : (1 - (S + P))ᴴ = 1 + (S - P) := by
    rw [conjTranspose_sub, conjTranspose_one, conjTranspose_add, hSskew, hPherm]
    noncomm_ring
  have hQ : cayleyTall W =
      Matrix.fromRows (B⁻¹ * (1 - (S + P))) ((-2 : 𝕜) • (V * B⁻¹)) := rfl
  rw [hQ, conjTranspose_fromRows_eq_fromColumns_conjTranspose,
    fromColumns_mul_fromRows, conjTranspose_mul, h1A,
    Matrix.conjTranspose_nonsing_inv, hBH, conjTranspose_smul,
    conjTranspose_mul, Matrix.conjTranspose_nonsing_inv, hBH]
  simp only [star_neg, star_ofNat]
  have h4 : ((-2 : 𝕜)) * (-2) = 4 := by norm_num
  rw [Matrix.smul_mul, Matrix.mul_smul, smul_smul, h4]
  apply ((Matrix.isUnit_iff_isUnit_det _).2 hdetBH).mul_left_cancel
  apply ((Matrix.isUnit_iff_isUnit_det _).2 hdetB).mul_right_cancel
  simp only [Matrix.mul_assoc, add_mul, mul_add, smul_mul_assoc, mul_smul_comm]
  have hCB : (1 - (S + P)) * B = B * (1 - (S + P)) := by
    rw [hBdef]; noncomm_ring
  have hXcomm : (1 - (S - P)) * (1 + (S - P)) = (1 + (S - P)) * (1 - (S - P)) := by
    noncomm_ring
  have hiXX : (1 - (S - P)) * (1 - (S - P))⁻¹ = 1 :=
    Matrix.mul_nonsing_inv _ hdetBH
  have hiBB : B⁻¹ * B = 1 := Matrix.nonsing_inv_mul _ hdetB
  rw [hCB, ← Matrix.mul_assoc B⁻¹ B, hiBB]
  simp only [Matrix.one_mul, Matrix.mul_one]
  rw [← Matrix.mul_assoc (1 - (S - P)) ((1 - (S - P))⁻¹) (1 - (S + P)), hiXX,
    Matrix.one_mul]
  rw [← Matrix.mul_assoc (1 - (S - P)) ((1 - (S - P))⁻¹) (Vᴴ * V), hiXX,
    Matrix.one_mul]
  rw [← Matrix.mul_assoc (1 - (S - P)) (S - P),
    (by noncomm_ring :
      (1 - (S - P)) * (S - P) = (S - P) * (1 - (S - P))),
    Matrix.mul_assoc (S - P) (1 - (S - P)),
    ← Matrix.mul_assoc (1 - (S - P)) ((1 - (S - P))⁻¹) (1 - (S + P)), hiXX,
    Matrix.one_mul]
  have h4P : (4 : 𝕜) • (Vᴴ * V) = Vᴴ * V + Vᴴ * V + Vᴴ * V + Vᴴ * V := by
    rw [show (4 : 𝕜) = 1 + 1 + 1 + 1 by norm_num]
    simp [add_smul]
  rw [h4P, ← hPdef, hBdef]
  noncomm_ring

/-! ## Euclidean norms of complex vectors -/

theorem vecNormSq_eq_dot {ι : Type} [Fintype ι] (y : ι → ℂ) :
    ((vecNormSq y : ℝ) : ℂ) = star y ⬝ᵥ y := by
  simp only [vecNormSq, Matrix.dotProduct, Pi.star_apply, Complex.star_def]
  push_cast
  refine Finset.sum_congr rfl fun i _ => ?_
  rw [mul_comm, Complex.mul_conj]

theorem star_dot_mulVec {c : ℕ} {Q : Matrix (Fin c) (Fin c) ℂ}
    (hQ : Qᴴ * Q = 1) (x : Fin c → ℂ) :
    star (Q *ᵥ x) ⬝ᵥ (Q *ᵥ x) = star x ⬝ᵥ x := by
  rw [Matrix.star_mulVec, Matrix.dotProduct_mulVec, Matrix.vecMul_vecMul, hQ,
    Matrix.vecMul_one]

/-- A matrix with `Qᴴ Q = 1` preserves the squared Euclidean norm. -/
theorem vecNormSq_mulVec_eq {c : ℕ} {Q : Matrix (Fin c) (Fin c) ℂ}
    (hQ : Qᴴ * Q = 1) (x : Fin c → ℂ) :
    vecNormSq (Q *ᵥ x) = vecNormSq x := by
  have h := star_dot_mulVec hQ x
  rw [← vecNormSq_eq_dot, ← vecNormSq_eq_dot] at h
  exact_mod_cast h

/-! ## Claim C1: the per-frequency operator built by `CayleyConv.forward` -/

/-- Claim C1: for every frequency-domain weight stack `wfft` of a
`CayleyConv` with equal in/out channels, every `alpha` and every value of
the normalizing scalar, each per-frequency matrix produced by applying
`cayley` to the normalized `alpha`-scaled stack is unitary — hence all
its singular values are `1 ≤ 1` and it cannot expand the squared
Euclidean norm of any per-frequency input vector (the bias-free linear
map acts per frequency by these matrices, so its operator norm is at
most 1, exactly, in exact arithmetic). -/
theorem claim_C1_cayleyConv_norm_bound {b c : ℕ}
    (wfft : Fin b → Matrix (Fin c) (Fin c) ℂ) (alpha nrm : ℝ) (t : Fin b) :
    ((cayleyConvQ wfft alpha nrm t)ᴴ * cayleyConvQ wfft alpha nrm t = 1) ∧
      ∀ x : Fin c → ℂ,
        vecNormSq (cayleyConvQ wfft alpha nrm t *ᵥ x) ≤ vecNormSq x := by
  have hsq : cayleyConvQ wfft alpha nrm t =
      cayleyED (((alpha : ℂ) / (nrm : ℂ)) • wfft t) :=
    cayleySq_eq_cayleyED _
  set M := ((alpha : ℂ) / (nrm : ℂ)) • wfft t with hM
  have hUnit : IsUnit (1 + (M - Mᴴ)) :=
    isUnit_one_add_of_skew (sub_conjTranspose_skew M)
  have hQQ : cayleyED M * (cayleyED M)ᴴ = 1 :=
    cayleyED_mul_conjTranspose M hUnit
  have hQHQ : (cayleyED M)ᴴ * cayleyED M = 1 := Matrix.mul_eq_one_comm.1 hQQ
  refine ⟨by rw [hsq]; exact hQHQ, fun x => ?_⟩
  rw [hsq, vecNormSq_mulVec_eq hQHQ]

/-! ## Claim C2: the `ED=True` Cayley transform is unitary -/

/-- Claim C2: for every batched square stack `W` (over any real-or-complex
scalar field) such that `I + (W - Wᴴ)` is invertible, every batch slice
of `cayley(W, ED=True)` is unitary: `Q @ Qᴴ = I`. -/
theorem claim_C2_cayleyED_unitary {𝕜 : Type} [RCLike 𝕜] {b c : ℕ}
    (W : Fin b → Matrix (Fin c) (Fin c) 𝕜) (t : Fin b)
    (h : IsUnit (1 + (W t - (W t)ᴴ))) :
    cayleyEDBatch W t * (cayleyEDBatch W t)ᴴ = 1 :=
  cayleyED_mul_conjTranspose (W t) h

/-- Witness for C2 at a concrete input: the batch-1 stack of the `1 × 1`
zero matrix over `ℝ`. -/
theorem claim_C2_witness :
    cayleyEDBatch (fun _ : Fin 1 => (0 : Matrix (Fin 1) (Fin 1) ℝ)) 0 *
      (cayleyEDBatch (fun _ : Fin 1 => (0 : Matrix (Fin 1) (Fin 1) ℝ)) 0)ᴴ = 1 :=
  claim_C2_cayleyED_unitary (fun _ : Fin 1 => (0 : Matrix (Fin 1) (Fin 1) ℝ)) 0
    (by simp)

/-! ## Claim C3: the rectangular Cayley transform has orthonormal columns -/

/-- Claim C3: for every batched real matrix stack `W` of shape
`(b, out, in)` with `out = in + k ≥ in`, whenever `I + A` is invertible
(`A = U - Uᵀ + Vᵀ V` from the row split of `W` into its first `in` rows
`U` and remainder `V`), the slice `Q` of `cayley(W)` has orthonormal
columns: `Qᵀ @ Q = I_in`. -/
theorem claim_C3_cayley_tall_orthonormal {b c k : ℕ}
    (W : Fin b → Matrix (Fin c ⊕ Fin k) (Fin c) ℝ) (t : Fin b)
    (h : IsUnit (1 + (Matrix.toRows₁ (W t) - (Matrix.toRows₁ (W t))ᵀ +
      (Matrix.toRows₂ (W t))ᵀ * Matrix.toRows₂ (W t)))) :
    (cayleyTallBatch W t)ᵀ * cayleyTallBatch W t = 1 := by
  rw [← Matrix.conjTranspose_eq_transpose_of_trivial]
  refine cayleyTall_conjTranspose_mul (W t) ?_
  rwa [Matrix.conjTranspose_eq_transpose_of_trivial (Matrix.toRows₁ (W t)),
    Matrix.conjTranspose_eq_transpose_of_trivial (Matrix.toRows₂ (W t))]

/-- Witness for C3 at a concrete input: the batch-1 stack of the `2 × 1`
zero matrix. -/
theorem claim_C3_witness :
    (cayleyTallBatch (fun _ : Fin 1 =>
        (0 : Matrix (Fin 1 ⊕ Fin 1) (Fin 1) ℝ)) 0)ᵀ *
      cayleyTallBatch (fun _ : Fin 1 =>
        (0 : Matrix (Fin 1 ⊕ Fin 1) (Fin 1) ℝ)) 0 = 1 :=
  claim_C3_cayley_tall_orthonormal (fun _ : Fin 1 => 0) 0 (by
    have h1 : Matrix.toRows₁ (0 : Matrix (Fin 1 ⊕ Fin 1) (Fin 1) ℝ) = 0 := rfl
    have h2 : Matrix.toRows₂ (0 : Matrix (Fin 1 ⊕ Fin 1) (Fin 1) ℝ) = 0 := rfl
    rw [h1, h2]
    simp)

/-! ## Claim C4: 2-D inputs are handled by batching -/

/-- Claim C4: for every 2-D matrix `W` and both `ED` modes, `cayley(W, ED)`
equals the corresponding batched `cayley` applied to `W` with a leading
batch dimension of size 1, with that dimension removed (slice `0`).  For
`ED=True` (square `W`) this holds even though the source's 2-D branch
drops the `ED` flag, because on a square slice the `ED=False` path
degenerates to the `ED=True` formula (`V` is empty). -/
theorem claim_C4_unbatched_via_batch (𝕜 : Type) [RCLike 𝕜] :
    (∀ (c : ℕ) (W : Matrix (Fin c) (Fin c) 𝕜),
      cayley2dSq W true = cayleyEDBatch (fun _ : Fin 1 => W) 0) ∧
    (∀ (c : ℕ) (W : Matrix (Fin c) (Fin c) 𝕜),
      cayley2dSq W false = cayleySqBatch (fun _ : Fin 1 => W) 0) ∧
    (∀ (c k : ℕ) (W : Matrix (Fin c ⊕ Fin k) (Fin c) 𝕜),
      cayley2dTall W false = cayleyTallBatch (fun _ : Fin 1 => W) 0) ∧
    (∀ (c k : ℕ) (W : Matrix (Fin c) (Fin c ⊕ Fin k) 𝕜),
      cayley2dWide W false = cayleyWideBatch (fun _ : Fin 1 => W) 0) := by
  refine ⟨fun c W => ?_, fun c W => rfl, fun c k W => rfl, fun c k W => rfl⟩
  exact cayleySq_eq_cayleyED W

/-! ## Claim C5: the striding adapter -/

theorem apply3_congr {C W H : ℕ} (f : Fin C → Fin W → Fin H → ℝ)
    {i i' : Fin C} {j j' : Fin W} {l l' : Fin H}
    (hi : i = i') (hj : j = j') (hl : l = l') : f i j l = f i' j' l' := by
  rw [hi, hj, hl]

/-- Claim C5: constructing a `StridedConv`-derived module with positional
arguments `in_channels=4`, `kernel_size=3` (and any `out_channels`) and
keyword `stride=2` passes `in_channels=16`, `kernel_size=1`, `padding=0`,
`stride=1` to the wrapped base constructor and registers the pre-forward
hook; the hook is the fixed 2×2 space-to-depth rearrangement sending each
2×2 spatial block of input channel `c` to the four output channels
`4c, 4c+1, 4c+2, 4c+3`. -/
theorem claim_C5_strided_conv_args (co : ℕ) :
    (stridedConvInit [4, co, 3] (some 2) none =
      some { args := [16, co, 1], stride := some 1, kernel_size := none,
             padding := some 0, striding := true }) ∧
    ∀ (B C W H : ℕ) (x : Fin B → Fin C → Fin (2 * W) → Fin (2 * H) → ℝ)
      (b : Fin B) (c : Fin C) (k1 k2 : Fin 2) (w : Fin W) (h : Fin H),
      spaceToDepth x b
        ⟨4 * (c : ℕ) + 2 * (k1 : ℕ) + (k2 : ℕ), by
          have := c.isLt; have := k1.isLt; have := k2.isLt; omega⟩ w h =
      x b c
        ⟨2 * (w : ℕ) + (k1 : ℕ), by have := w.isLt; have := k1.isLt; omega⟩
        ⟨2 * (h : ℕ) + (k2 : ℕ), by have := h.isLt; have := k2.isLt; omega⟩ := by
  refine ⟨rfl, ?_⟩
  intro B C W H x b c k1 k2 w h
  refine apply3_congr (x b) (Fin.ext ?_) (Fin.ext ?_) (Fin.ext ?_)
  · show (4 * (c : ℕ) + 2 * (k1 : ℕ) + (k2 : ℕ)) / 4 = (c : ℕ)
    have := k1.isLt
    have := k2.isLt
    omega
  · show 2 * (w : ℕ) + ((4 * (c : ℕ) + 2 * (k1 : ℕ) + (k2 : ℕ)) % 4) / 2 =
        2 * (w : ℕ) + (k1 : ℕ)
    have := k1.isLt
    have := k2.isLt
    omega
  · show 2 * (h : ℕ) + (4 * (c : ℕ) + 2 * (k1 : ℕ) + (k2 : ℕ)) % 2 =
        2 * (h : ℕ) + (k2 : ℕ)
    have := k1.isLt
    have := k2.isLt
    omega

/-! ## Claim C8: `GroupSort` is 1-Lipschitz -/

/-- Sorting a pair is 1-Lipschitz coordinatewise. -/
theorem maxmin_sq_le (a b c d : ℝ) :
    (max a b - max c d) ^ 2 + (min a b - min c d) ^ 2 ≤
      (a - c) ^ 2 + (b - d) ^ 2 := by
  rcases le_total a b with h1 | h1 <;> rcases le_total c d with h2 | h2
  · rw [max_eq_right h1, max_eq_right h2, min_eq_left h1, min_eq_left h2]
    nlinarith
  · rw [max_eq_right h1, max_eq_left h2, min_eq_left h1, min_eq_right h2]
    nlinarith [mul_nonneg (sub_nonneg.2 h1) (sub_nonneg.2 h2)]
  · rw [max_eq_left h1, max_eq_right h2, min_eq_right h1, min_eq_left h2]
    nlinarith [mul_nonneg (sub_nonneg.2 h1) (sub_nonneg.2 h2)]
  · rw [max_eq_left h1, max_eq_left h2, min_eq_right h1, min_eq_right h2]

/-- Claim C8: for every two inputs of the same shape with an even,
positive channel dimension, `GroupSort` is 1-Lipschitz in the Euclidean
norm: `‖GroupSort(x1) - GroupSort(x2)‖₂ ≤ ‖x1 - x2‖₂`. -/
theorem claim_C8_groupSort_lipschitz {m : ℕ} {ι : Type} [Fintype ι]
    (x1 x2 : (Fin m ⊕ Fin m) → ι → ℝ) :
    tensorL2 (fun i s => groupSort x1 i s - groupSort x2 i s) ≤
      tensorL2 (fun i s => x1 i s - x2 i s) := by
  unfold tensorL2
  apply Real.sqrt_le_sqrt
  rw [Fintype.sum_sum_type, Fintype.sum_sum_type, ← Finset.sum_add_distrib,
    ← Finset.sum_add_distrib]
  apply Finset.sum_le_sum
  intro j _
  rw [← Finset.sum_add_distrib, ← Finset.sum_add_distrib]
  apply Finset.sum_le_sum
  intro s _
  simp only [groupSort]
  exact maxmin_sq_le _ _ _ _

/-! ## Claim C9: `ConvexCombo` on equal inputs -/

/-- Claim C9: for every tensor `x` and every value of `alpha`,
`ConvexCombo.forward(x, x)` returns exactly `x`:
`sigmoid(alpha) * x + (1 - sigmoid(alpha)) * x = x`. -/
theorem claim_C9_convexCombo_self {ι : Type} (alpha : ℝ) (x : ι → ℝ) :
    convexCombo alpha x x = x := by
  funext i
  unfold convexCombo
  ring

/-! ## Claim C10: success condition and shape of `GroupSort.forward` -/

/-- Claim C10: `GroupSort.forward` succeeds precisely when the channel
dimension is even and at least 2 (otherwise the two-way unpacking of the
split raises), and on success the output has the same channel count as
the input. -/
theorem claim_C10_groupSort_success {ι : Type} (c : ℕ) (x : Fin c → ι → ℝ) :
    ((groupSortGen c x).isSome ↔ c % 2 = 0 ∧ 2 ≤ c) ∧
    ∀ y, groupSortGen c x = some y → y.1 = c := by
  constructor
  · unfold groupSortGen
    split
    case isTrue h =>
      simp only [Option.isSome_some, true_iff]
      rcases h with ⟨h1, h2⟩
      refine ⟨?_, by omega⟩
      by_contra hodd'
      have h3 : c + c / 2 - 1 = 3 * (c / 2) := by omega
      unfold splitChunks at h2
      rw [h3, Nat.mul_div_cancel 3 h1] at h2
      exact absurd h2 (by norm_num)
    case isFalse h =>
      simp only [Option.isSome_none, Bool.false_eq_true, false_iff]
      intro hc
      apply h
      obtain ⟨heven, hge⟩ := hc
      refine ⟨by omega, ?_⟩
      unfold splitChunks
      have e1 : c + c / 2 - 1 = (c / 2 - 1) + (c / 2) * 2 := by omega
      rw [e1, Nat.add_mul_div_left _ 2 (by omega : 0 < c / 2),
        Nat.div_eq_of_lt (by omega)]
  · intro y hy
    unfold groupSortGen at hy
    split at hy
    · cases hy
      rfl
    · exact absurd hy (by simp)

/-- Witness for C10 at a concrete input: a zero tensor with 4 channels. -/
theorem claim_C10_witness :
    (((groupSortGen 4 (fun _ : Fin 4 => fun _ : Unit => (0 : ℝ))).isSome ↔
        4 % 2 = 0 ∧ 2 ≤ 4) ∧
      ∀ y, groupSortGen 4 (fun _ : Fin 4 => fun _ : Unit => (0 : ℝ)) =
          some y → y.1 = 4) :=
  claim_C10_groupSort_success 4 (fun _ => fun _ => 0)

/-! ## Claim C6: `CayleyLinear` caching -/

/-- Claim C6: in training mode every `CayleyLinear.forward` call
recomputes `Q = cayley(alpha * weight / ‖weight‖)` from the current
parameters (and returns it non-detached); outside training `Q` is
computed only when the cache is absent, is returned detached, and every
subsequent evaluation-mode call leaves the state (hence the cached `Q`)
unchanged; `forward` never clears the cache — only `reset_parameters`
resets it to `None`. -/
theorem claim_C6_cayleyLinear_cache {n : ℕ}
    (w w' : Matrix (Fin n) (Fin n) ℝ) (b b' : Fin n → ℝ) (a : ℝ)
    (Qopt : Option (Matrix (Fin n) (Fin n) ℝ))
    (q : Matrix (Fin n) (Fin n) ℝ) (X : Fin n → ℝ)
    (Xs : List (Fin n → ℝ)) (tr : Bool) :
    (cayleyLinearForward ⟨w, b, a, Qopt, true⟩ X =
      (⟨w, b, a, some (cayleyLinearQ w a), true⟩,
        (fun i => (cayleyLinearQ w a *ᵥ X) i + b i,
          cayleyLinearQ w a, false))) ∧
    (cayleyLinearForward ⟨w, b, a, none, false⟩ X =
      (⟨w, b, a, some (cayleyLinearQ w a), false⟩,
        (fun i => (cayleyLinearQ w a *ᵥ X) i + b i,
          cayleyLinearQ w a, true))) ∧
    (cayleyLinearForward ⟨w, b, a, some q, false⟩ X =
      (⟨w, b, a, some q, false⟩,
        (fun i => (q *ᵥ X) i + b i, q, true))) ∧
    (Xs.foldl (fun st Y => (cayleyLinearForward st Y).1)
        ⟨w, b, a, some q, false⟩ = ⟨w, b, a, some q, false⟩) ∧
    ((cayleyLinearForward ⟨w, b, a, Qopt, tr⟩ X).1.Q ≠ none) ∧
    (cayleyLinearReset ⟨w, b, a, Qopt, tr⟩ w' b' = ⟨w', b', a, none, tr⟩) := by
  refine ⟨rfl, rfl, rfl, ?_, ?_, rfl⟩
  · induction Xs with
    | nil => rfl
    | cons Y Ys ih =>
      rw [List.foldl_cons]
      exact ih
  · cases tr <;> cases Qopt <;> simp [cayleyLinearForward]

/-! ## Claim C7: `genH` termination and single invocation -/

theorem foldl_range_eq_iterate {α : Type} (f : α → α) (w : α) (n : ℕ) :
    (List.range n).foldl (fun v _ => f v) w = f^[n] w := by
  induction n with
  | zero => rfl
  | succ n ih =>
    rw [List.range_succ, List.foldl_append, ih]
    simp [Function.iterate_succ_apply']

theorem edRunCount_of_some {β : Type} (gen : Unit → β × Bool) (k : ℕ)
    (h : β × Bool) : edRunCount gen k { H := some h } = 0 := by
  induction k generalizing h with
  | zero => rfl
  | succ k ih => simp [edRunCount, edForwardH, ih]

/-- Claim C7: every `genH` call (both `CayleyConvED` and `CayleyConvED2`)
performs exactly 100 update iterations, always runs to completion (the
loop is a fold over `range(100)` with no early exit), and stores a
detached tensor in `self.H`; the forward pass invokes `genH` only when
`self.H` is `None`, so over any number of forward calls `genH` runs at
most once per layer instance. -/
theorem claim_C7_genH_runs_once {α β : Type} (step : α → α) (hOf : α → β)
    (w0 : α) (gen : Unit → β × Bool) (s : EDState β) (h : β × Bool)
    (k : ℕ) :
    (genHLoop step w0 = step^[100] w0) ∧
    (genH_ED step hOf w0 = (hOf (step^[100] w0), false) ∧
      genH_ED2 step hOf w0 = (hOf (step^[100] w0), false)) ∧
    (edForwardH gen { H := none } = ({ H := some (gen ()) }, true) ∧
      edForwardH gen { H := some h } = ({ H := some h }, false)) ∧
    edRunCount gen k s ≤ 1 := by
  have hiter := foldl_range_eq_iterate step w0 100
  refine ⟨hiter, ⟨?_, ?_⟩, ⟨rfl, rfl⟩, ?_⟩
  · unfold genH_ED genHLoop
    rw [foldl_range_eq_iterate]
  · unfold genH_ED2 genHLoop
    rw [foldl_range_eq_iterate]
  · cases k with
    | zero => exact Nat.zero_le 1
    | succ k =>
      obtain ⟨H⟩ := s
      cases H with
      | none => simp [edRunCount, edForwardH, edRunCount_of_some]
      | some hh => simp [edRunCount, edForwardH, edRunCount_of_some]

end FFTOrtho
